import Mathlib

/-!
Verification of the retrieval and context-assembly engine of the pythiq
backend, as implemented in `src/app/services/rag_service.py`, together with
its usage-ledger behaviour at the call site in
`src/app/api/v1/endpoints/chats.py`.

The Python code is shallowly embedded: every definition below mirrors a
specific block of the source, with the external collaborators (the vector
index, the embedding and generation providers, and the `tiktoken` token
counter) abstracted as function parameters, exactly as the design treats
them (stateless request/response services).  Provider similarity scores are
modelled as rationals; concrete scores are written with `mkRat`.
-/

namespace PythiQ

/-! ## Data model

A `Chunk` is one vector-search hit as assembled in
`rag_service.py` lines 106-111: the dict with keys `text`,
`document_name`, `document_id` and `score`.  A `ContextEntry` is one
element of the list returned by `get_relevant_chunks` (lines 174-178),
which drops the `document_id` key.  `RagError` enumerates the `ValueError`s
the function can raise: the representation-guarantee failure of lines
144-147, the `min()`-over-empty-sequence failure of line 165 (reachable
only with an empty document list), and the final double-check of lines
184-188. -/

structure Chunk where
  text : String
  document_name : String
  document_id : String
  score : ℚ
deriving DecidableEq, Repr

structure ContextEntry where
  text : String
  document_name : String
  score : ℚ
deriving DecidableEq, Repr

inductive RagError where
  | incompleteRepresentation (missing : List String)
  | emptyFinalChunks
  | missingInFinal (missing : List String)
deriving DecidableEq, Repr

instance {ε α : Type} [DecidableEq ε] [DecidableEq α] : DecidableEq (Except ε α) :=
  fun x y =>
    match x, y with
    | .error a, .error b =>
      if h : a = b then .isTrue (by rw [h]) else .isFalse (by simp [h])
    | .ok a, .ok b =>
      if h : a = b then .isTrue (by rw [h]) else .isFalse (by simp [h])
    | .error _, .ok _ => .isFalse (by simp)
    | .ok _, .error _ => .isFalse (by simp)

/-- The per-document vector search, abstracted.  `searchFn d` is the
outcome of the `milvus_client.search` call of lines 85-93 for document `d`
(the query embedding, knowledge-base filter and collection are fixed for
the whole call): either a provider error or the list of well-formed hits. -/
abbrev SearchFn := String → Except String (List Chunk)

/-- Hits actually collected for one document: a failed search contributes
nothing, because the `except` clause of lines 121-125 only logs and
`continue`s. -/
def hitsOf (searchFn : SearchFn) (d : String) : List Chunk :=
  match searchFn d with
  | .error _ => []
  | .ok hits => hits

/-! ## Step 1: per-document retrieval (lines 77-125)

The loop accumulates `all_chunks` (every hit, in document order) and
`chunks_by_doc` (hits grouped by the loop's `doc_id`).  The grouping dict
is modelled as a total function defaulting to `[]`: the code only creates
an entry when a hit exists, and only ever tests entries for nonemptiness. -/

def step1Body (searchFn : SearchFn) (acc : List Chunk × (String → List Chunk))
    (d : String) : List Chunk × (String → List Chunk) :=
  match searchFn d with
  | .error _ => acc
  | .ok hits => (acc.1 ++ hits, fun x => if x = d then acc.2 x ++ hits else acc.2 x)

def step1 (searchFn : SearchFn) (enabled : List String) :
    List Chunk × (String → List Chunk) :=
  enabled.foldl (step1Body searchFn) ([], fun _ => [])

/-! ## Global rerank (lines 127-128)

`all_chunks.sort(key=lambda x: x['score'], reverse=True)` is Python's
stable sort, descending by score.  It is modelled by insertion sort under
the reflexive "score is at least" relation, which computes the same
function: both are stable and order solely by the score key. -/

def chunkGe (a b : Chunk) : Prop := b.score ≤ a.score

instance : DecidableRel chunkGe :=
  fun a b => inferInstanceAs (Decidable (b.score ≤ a.score))

instance : IsTotal Chunk chunkGe := ⟨fun a b => le_total b.score a.score⟩

instance : IsTrans Chunk chunkGe := ⟨fun _ _ _ hab hbc => le_trans hbc hab⟩

def sortByScoreDesc (l : List Chunk) : List Chunk := l.insertionSort chunkGe

/-! ## Mandatory pass (lines 133-147) -/

/-- Python's `max(chunks, key=lambda x: x['score'])` over `c :: cs`: the
first chunk attaining the maximal score (`max` replaces its candidate only
on a strictly greater key). -/
def maxByScore (c : Chunk) (cs : List Chunk) : Chunk :=
  cs.foldl (fun b x => if b.score < x.score then x else b) c

/-- The `best_chunk` selection of lines 136-139: `none` when the document
has no grouped chunks (line 136 tests presence and nonemptiness). -/
def bestChunk? (l : List Chunk) : Option Chunk :=
  match l with
  | [] => none
  | c :: cs => some (maxByScore c cs)

/-- The first pass of lines 133-142: per enabled document, either append
its best chunk to `final_chunks` or append the document to `missing_docs`. -/
def mandatoryBody (byDoc : String → List Chunk) (acc : List Chunk × List String)
    (d : String) : List Chunk × List String :=
  match bestChunk? (byDoc d) with
  | some b => (acc.1 ++ [b], acc.2)
  | none => (acc.1, acc.2 ++ [d])

def mandatoryPass (enabled : List String) (byDoc : String → List Chunk) :
    List Chunk × List String :=
  enabled.foldl (mandatoryBody byDoc) ([], [])

/-! ## Supplementary pass (lines 149-158) -/

/-- The constant of line 150, `0.75`. -/
def SIMILARITY_THRESHOLD : ℚ := mkRat 3 4

/-- The loop of lines 154-158: walk the globally sorted pool, stop once
`final_chunks` has reached `max_chunks` entries, and append a candidate
only when it is not already included and meets the threshold. -/
def supplementaryPass (pool : List Chunk) (maxChunks : ℕ) (acc : List Chunk) :
    List Chunk :=
  match pool with
  | [] => acc
  | c :: rest =>
    if maxChunks ≤ acc.length then acc
    else if c ∉ acc ∧ SIMILARITY_THRESHOLD ≤ c.score then
      supplementaryPass rest maxChunks (acc ++ [c])
    else supplementaryPass rest maxChunks acc

/-! ## The retrieval planner (lines 53-193)

`planChunks` is `get_relevant_chunks` up to the final projection: it
returns the sorted `final_chunks` list (the spec's `RetrievalResult`,
whose entries still carry `document_id`), or the `ValueError` raised.
`get_relevant_chunks` then projects each chunk to the returned dict of
lines 174-178.  The embedding call of line 71 and the collection-name
derivation of lines 64-68 are orthogonal to the selection logic and are
modelled separately (`sanitize_collection_name` below). -/

def planChunks (searchFn : SearchFn) (enabled : List String) :
    Except RagError (List Chunk) :=
  let s := step1 searchFn enabled
  let allSorted := sortByScoreDesc s.1
  let mp := mandatoryPass enabled s.2
  if mp.2 ≠ [] then .error (.incompleteRepresentation mp.2)
  else
    let maxChunks := enabled.length * 3
    let finalChunks := supplementaryPass allSorted maxChunks mp.1
    let finalSorted := sortByScoreDesc finalChunks
    if finalSorted.isEmpty then .error .emptyFinalChunks
    else
      let missingInFinal :=
        enabled.filter (fun d => finalSorted.all (fun c => c.document_id ≠ d))
      if missingInFinal ≠ [] then .error (.missingInFinal missingInFinal)
      else .ok finalSorted

/-- The projection of lines 174-178. -/
def toContextEntry (c : Chunk) : ContextEntry :=
  ⟨c.text, c.document_name, c.score⟩

/-- The full `get_relevant_chunks` observable: the returned context list,
or the raised error. -/
def get_relevant_chunks (searchFn : SearchFn) (enabled : List String) :
    Except RagError (List ContextEntry) :=
  (planChunks searchFn enabled).map (List.map toContextEntry)

/-! ## Context-window management (lines 195-228)

`count_tokens` (tiktoken) is abstracted as a parameter `tc`. -/

structure Msg where
  role : String
  content : String
deriving DecidableEq, Repr

/-- The `while` loop of lines 223-225: pop from the front while the total
exceeds the budget and more than two messages remain. -/
def trimLoop (mts : List (Msg × ℕ)) (total maxTokens : ℕ) : List (Msg × ℕ) :=
  match mts with
  | [] => []
  | m :: rest =>
    if maxTokens < total ∧ 2 < (m :: rest).length then
      trimLoop rest (total - m.2) maxTokens
    else m :: rest

/-- Lines 195-228: fixed tokens for system message and query, early return
on empty history, full history when under the limit, otherwise the trim
loop.  The Python default `max_tokens=120000` is passed explicitly. -/
def manage_context_window (tc : String → ℕ) (system_message : String)
    (chat_history : List Msg) (query : String) (maxTokens : ℕ) : List Msg :=
  let fixed := tc system_message + tc query
  if chat_history.isEmpty then []
  else
    let message_tokens := chat_history.map (fun m => (m, tc m.content))
    let total := fixed + (message_tokens.map (fun p => p.2)).sum
    if total ≤ maxTokens then chat_history
    else (trimLoop message_tokens total maxTokens).map (fun p => p.1)

/-- Token accounting of lines 203-215: system message plus query plus every
history turn, used to state the budget properties. -/
def totalTokens (tc : String → ℕ) (system_message query : String)
    (history : List Msg) : ℕ :=
  tc system_message + tc query + (history.map (fun m => tc m.content)).sum

/-! ## Generation usage ledger (lines 313-337)

The provider call of lines 320-325 is abstracted as its outcome.  On
success the code emits one usage record, but only under the truthiness
guard `if chat_id and user_id:` of line 328 — a `None` or empty-string
identifier suppresses the record.  `generate_response` below returns the
answer together with the list of records written.  The call site
`create_message` (`chats.py` lines 138-142) invokes the method without
`chat_id` or `user_id`, so both default to `None` there. -/

structure ProviderUsage where
  prompt_tokens : ℕ
  completion_tokens : ℕ
deriving DecidableEq, Repr

structure UsageRecord where
  user_id : String
  chat_id : String
  completion_tokens : ℕ
  prompt_tokens : ℕ
  operation_type : String
deriving DecidableEq, Repr

/-- Python truthiness of an optional string: `None` and `""` are falsy. -/
def truthy : Option String → Bool
  | none => false
  | some s => !(s = "")

def generate_response (provider : Except String (String × ProviderUsage))
    (chat_id user_id : Option String) :
    Except String (String × List UsageRecord) :=
  match provider with
  | .error e => .error e
  | .ok (answer, usage) =>
    let records :=
      if truthy chat_id ∧ truthy user_id then
        [⟨(user_id.getD ""), (chat_id.getD ""), usage.completion_tokens,
          usage.prompt_tokens, "chat"⟩]
      else []
    .ok (answer, records)

/-! ## Collection-name sanitisation (lines 64-68)

The Python is
`collection_name = user_id.replace('.', '_').replace('@', '_')`, then
`while '__' in collection_name: collection_name = collection_name.replace('__', '_')`,
then `collection_name = collection_name.rstrip('_')`.
Strings are handled as their character lists.  The `while` loop is modelled
with a fuel of `l.length` iterations; the theorems below show this fuel
always reaches the loop's fixpoint (the output has no double underscore),
so the bounded model coincides with the unbounded loop. -/

def replaceDot (l : List Char) : List Char :=
  l.map fun c => if c = '.' then '_' else c

def replaceAtSign (l : List Char) : List Char :=
  l.map fun c => if c = '@' then '_' else c

/-- Python's `'__' in s`. -/
def hasDoubleUnderscore : List Char → Bool
  | c :: d :: rest =>
    if c = '_' ∧ d = '_' then true else hasDoubleUnderscore (d :: rest)
  | _ => false

/-- One pass of `s.replace('__', '_')`: replace non-overlapping occurrences
left to right. -/
def replaceDouble : List Char → List Char
  | [] => []
  | [c] => [c]
  | c :: d :: rest =>
    if c = '_' ∧ d = '_' then '_' :: replaceDouble rest
    else c :: replaceDouble (d :: rest)

def collapseLoopFuel : ℕ → List Char → List Char
  | 0, l => l
  | fuel + 1, l =>
    if hasDoubleUnderscore l then collapseLoopFuel fuel (replaceDouble l) else l

def collapseLoop (l : List Char) : List Char := collapseLoopFuel l.length l

/-- Python's `s.rstrip('_')`: drop every trailing underscore. -/
def rstripUnderscore : List Char → List Char
  | [] => []
  | c :: rest =>
    let r := rstripUnderscore rest
    if r = [] ∧ c = '_' then [] else c :: r

/-- The collection name the source derives from `user_id` (lines 64-68). -/
def sanitize_collection_name (user_id : String) : String :=
  (rstripUnderscore (collapseLoop (replaceAtSign (replaceDot user_id.toList)))).asString

/-! ## Spec-side derivations for comparison

`collapseRuns` collapses each run of repeated underscores to a single one
in a single structural pass; it is proved below to coincide with the
source's replace-until-fixpoint loop.  `spec_collection_name` follows the
spec's §4.2 words verbatim — lower-case, replace `.` and `@` with `_`,
collapse runs, strip trailing `_` — and is compared against the source's
derivation, which performs no lower-casing. -/

def collapseRunsAux : Bool → List Char → List Char
  | _, [] => []
  | prevUnderscore, c :: rest =>
    if c = '_' then
      if prevUnderscore then collapseRunsAux true rest
      else '_' :: collapseRunsAux true rest
    else c :: collapseRunsAux false rest

def collapseRuns (l : List Char) : List Char := collapseRunsAux false l

/-! ## Concrete scenario inputs

These instantiate the testable properties of §8 of the spec; they are used
in the concrete conjuncts of the claim theorems and in witnesses. -/

/-- Scenario search of §8: documents `d1` and `d2` return one candidate
each, scored 0.9 and 0.6. -/
def scenarioTwoDocs : SearchFn := fun d =>
  if d = "d1" then .ok [⟨"t1", "n1", "d1", mkRat 9 10⟩]
  else if d = "d2" then .ok [⟨"t2", "n2", "d2", mkRat 6 10⟩]
  else .ok []

/-- Scenario search for the supplementary pass of §8: beyond the two
best-of-document candidates (scored 0.98 and 0.76), the remaining pool is
scored 0.95, 0.80, 0.70. -/
def scenarioSupplementary : SearchFn := fun d =>
  if d = "d1" then
    .ok [⟨"t1", "n1", "d1", mkRat 98 100⟩, ⟨"t2", "n1", "d1", mkRat 95 100⟩,
         ⟨"t3", "n1", "d1", mkRat 80 100⟩]
  else if d = "d2" then
    .ok [⟨"t4", "n2", "d2", mkRat 76 100⟩, ⟨"t5", "n2", "d2", mkRat 70 100⟩]
  else .ok []

/-- Search whose index query fails for `d1` and succeeds for `d2`. -/
def scenarioFailingSearch : SearchFn := fun d =>
  if d = "d1" then .error "index query failed"
  else .ok [⟨"t2", "n2", "d2", mkRat 8 10⟩]

/-- Four conversation turns of ten characters each, used with a
length-based token counter to exercise the trimming loop. -/
def histC4 : List Msg :=
  [⟨"user", "aaaaaaaaaa"⟩, ⟨"assistant", "bbbbbbbbbb"⟩,
   ⟨"user", "cccccccccc"⟩, ⟨"assistant", "dddddddddd"⟩]

/-- The derivation as §4.2 of the spec words it, including the lower-casing
step, stated for comparison with `sanitize_collection_name`. -/
def spec_collection_name (user_id : String) : String :=
  (rstripUnderscore (collapseRuns
    (replaceAtSign (replaceDot (user_id.toList.map Char.toLower))))).asString

/-- The spec's derivation with the lower-casing step removed: replace `.`
and `@` by `_`, collapse runs of `_`, strip trailing `_`. -/
def derived_collection_name (user_id : String) : String :=
  (rstripUnderscore (collapseRuns (replaceAtSign (replaceDot user_id.toList)))).asString

/-! ## Lemmas about the sanitisation pipeline -/

theorem replaceDouble_length_le (l : List Char) :
    (replaceDouble l).length ≤ l.length := by
  induction l using replaceDouble.induct with
  | case1 => simp [replaceDouble]
  | case2 c => simp [replaceDouble]
  | case3 c d rest h ih => simp [replaceDouble, h]; omega
  | case4 c d rest h ih => simp [replaceDouble, h] at ih ⊢; omega

theorem replaceDouble_length_lt (l : List Char) :
    hasDoubleUnderscore l = true → (replaceDouble l).length < l.length := by
  induction l using replaceDouble.induct with
  | case1 => intro h; simp [hasDoubleUnderscore] at h
  | case2 c => intro h; simp [hasDoubleUnderscore] at h
  | case3 c d rest h ih =>
    intro _
    have := replaceDouble_length_le rest
    simp [replaceDouble, h]
    omega
  | case4 c d rest h ih =>
    intro hdd
    have h2 : hasDoubleUnderscore (d :: rest) = true := by
      simpa [hasDoubleUnderscore, h] using hdd
    have := ih h2
    simp [replaceDouble, h] at this ⊢
    omega

theorem collapseRunsAux_replaceDouble (l : List Char) :
    ∀ b, collapseRunsAux b (replaceDouble l) = collapseRunsAux b l := by
  induction l using replaceDouble.induct with
  | case1 => intro b; rfl
  | case2 c => intro b; rfl
  | case3 c d rest h ih =>
    intro b
    obtain ⟨hc, hd⟩ := h
    subst hc; subst hd
    cases b <;> simp [replaceDouble, collapseRunsAux, ih]
  | case4 c d rest h ih =>
    intro b
    by_cases hc : c = '_'
    · subst hc
      have hd : ¬ d = '_' := fun hdd => h ⟨rfl, hdd⟩
      cases b <;> simp [replaceDouble, h, collapseRunsAux, hd, ih]
    · cases b <;> simp [replaceDouble, h, collapseRunsAux, hc, ih]

theorem hasDoubleUnderscore_cons_false {c : Char} {rest : List Char}
    (h : hasDoubleUnderscore (c :: rest) = false) :
    hasDoubleUnderscore rest = false ∧ ¬(c = '_' ∧ rest.head? = some '_') := by
  cases rest with
  | nil => simp [hasDoubleUnderscore]
  | cons d rest2 =>
    simp only [hasDoubleUnderscore] at h
    split at h
    · exact absurd h (by simp)
    · refine ⟨h, ?_⟩
      rintro ⟨hc, hd⟩
      simp only [List.head?] at hd
      exact ‹¬(c = '_' ∧ d = '_')› ⟨hc, by injection hd⟩

theorem collapseRunsAux_of_not_double (l : List Char)
    (h : hasDoubleUnderscore l = false) :
    collapseRunsAux false l = l ∧
      (l.head? ≠ some '_' → collapseRunsAux true l = l) := by
  induction l with
  | nil => simp [collapseRunsAux]
  | cons c rest ih =>
    obtain ⟨hrest, hpair⟩ := hasDoubleUnderscore_cons_false h
    obtain ⟨ih1, ih2⟩ := ih hrest
    by_cases hc : c = '_'
    · subst hc
      have hhd : rest.head? ≠ some '_' := fun hd => hpair ⟨rfl, hd⟩
      constructor
      · simp [collapseRunsAux, ih2 hhd]
      · intro habs; simp at habs
    · constructor
      · simp [collapseRunsAux, hc, ih1]
      · intro _; simp [collapseRunsAux, hc, ih1]

theorem head_collapseRunsAux_true (l : List Char) :
    (collapseRunsAux true l).head? ≠ some '_' := by
  induction l with
  | nil => simp [collapseRunsAux]
  | cons c rest ih =>
    by_cases hc : c = '_'
    · simpa [collapseRunsAux, hc] using ih
    · simp [collapseRunsAux, hc]

theorem hasDoubleUnderscore_cons_eq {c : Char} {l : List Char}
    (h : c ≠ '_' ∨ l.head? ≠ some '_') :
    hasDoubleUnderscore (c :: l) = hasDoubleUnderscore l := by
  cases l with
  | nil => rfl
  | cons d rest =>
    have : ¬(c = '_' ∧ d = '_') := by
      rintro ⟨hc, hd⟩
      rcases h with h | h
      · exact h hc
      · exact h (by simp [hd])
    simp [hasDoubleUnderscore, this]

theorem hasDoubleUnderscore_collapseRunsAux (l : List Char) :
    ∀ b, hasDoubleUnderscore (collapseRunsAux b l) = false := by
  induction l with
  | nil => intro b; rfl
  | cons c rest ih =>
    intro b
    by_cases hc : c = '_'
    · subst hc
      cases b with
      | true =>
        show hasDoubleUnderscore (collapseRunsAux true rest) = false
        exact ih true
      | false =>
        show hasDoubleUnderscore ('_' :: collapseRunsAux true rest) = false
        rw [hasDoubleUnderscore_cons_eq (Or.inr (head_collapseRunsAux_true rest))]
        exact ih true
    · simp only [collapseRunsAux, if_neg hc]
      rw [hasDoubleUnderscore_cons_eq (Or.inl hc)]
      exact ih false

theorem collapseLoopFuel_eq (fuel : ℕ) :
    ∀ l : List Char, l.length ≤ fuel → collapseLoopFuel fuel l = collapseRuns l := by
  induction fuel with
  | zero =>
    intro l h
    have : l = [] := List.eq_nil_of_length_eq_zero (Nat.le_zero.mp h)
    subst this; rfl
  | succ n ih =>
    intro l h
    rw [collapseLoopFuel]
    by_cases hd : hasDoubleUnderscore l
    · rw [if_pos hd, ih (replaceDouble l) (by have := replaceDouble_length_lt l hd; omega)]
      show collapseRunsAux false (replaceDouble l) = collapseRuns l
      rw [collapseRunsAux_replaceDouble l false]; rfl
    · rw [if_neg hd]
      exact ((collapseRunsAux_of_not_double l (by simpa using hd)).1).symm

theorem collapseLoop_eq (l : List Char) : collapseLoop l = collapseRuns l :=
  collapseLoopFuel_eq l.length l le_rfl

theorem rstripUnderscore_head? (l : List Char) :
    rstripUnderscore l = [] ∨ (rstripUnderscore l).head? = l.head? := by
  cases l with
  | nil => exact Or.inl rfl
  | cons c rest =>
    by_cases h : rstripUnderscore rest = [] ∧ c = '_'
    · exact Or.inl (by simp [rstripUnderscore, h])
    · right
      simp [rstripUnderscore, h]

theorem hasDoubleUnderscore_rstrip (l : List Char)
    (h : hasDoubleUnderscore l = false) :
    hasDoubleUnderscore (rstripUnderscore l) = false := by
  induction l with
  | nil => exact h
  | cons c rest ih =>
    obtain ⟨hrest, hpair⟩ := hasDoubleUnderscore_cons_false h
    by_cases hcase : rstripUnderscore rest = [] ∧ c = '_'
    · simp [rstripUnderscore, hcase]
      rfl
    · simp only [rstripUnderscore, if_neg hcase]
      rcases rstripUnderscore_head? rest with hr | hr
      · rw [hr]; rfl
      · rw [hasDoubleUnderscore_cons_eq ?_]
        · exact ih hrest
        · by_cases hc : c = '_'
          · exact Or.inr (by rw [hr]; exact fun hd => hpair ⟨hc, hd⟩)
          · exact Or.inl hc

theorem rstripUnderscore_idem (l : List Char) :
    rstripUnderscore (rstripUnderscore l) = rstripUnderscore l := by
  induction l with
  | nil => rfl
  | cons c rest ih =>
    by_cases hcase : rstripUnderscore rest = [] ∧ c = '_'
    · simp [rstripUnderscore, hcase]
    · simp only [rstripUnderscore, if_neg hcase]
      show rstripUnderscore (c :: rstripUnderscore rest) = _
      simp only [rstripUnderscore, ih]
      rw [if_neg hcase]

theorem mem_rstripUnderscore {c : Char} {l : List Char}
    (h : c ∈ rstripUnderscore l) : c ∈ l := by
  induction l with
  | nil => simp [rstripUnderscore] at h
  | cons x rest ih =>
    by_cases hcase : rstripUnderscore rest = [] ∧ x = '_'
    · simp [rstripUnderscore, hcase] at h
    · simp only [rstripUnderscore, if_neg hcase, List.mem_cons] at h
      rcases h with h | h
      · exact h ▸ List.mem_cons_self x rest
      · exact List.mem_cons_of_mem x (ih h)

theorem mem_collapseRunsAux {c : Char} {l : List Char} :
    ∀ b, c ∈ collapseRunsAux b l → c ∈ l := by
  induction l with
  | nil => intro b h; simp [collapseRunsAux] at h
  | cons x rest ih =>
    intro b h
    by_cases hx : x = '_'
    · subst hx
      cases b with
      | true =>
        have h2 : c ∈ collapseRunsAux true rest := h
        exact List.mem_cons_of_mem _ (ih true h2)
      | false =>
        have h2 : c ∈ '_' :: collapseRunsAux true rest := h
        rcases List.mem_cons.mp h2 with h3 | h3
        · exact h3 ▸ List.mem_cons_self _ _
        · exact List.mem_cons_of_mem _ (ih true h3)
    · have h2 : c ∈ x :: collapseRunsAux false rest := by
        simpa [collapseRunsAux, hx] using h
      rcases List.mem_cons.mp h2 with h3 | h3
      · exact h3 ▸ List.mem_cons_self _ _
      · exact List.mem_cons_of_mem _ (ih false h3)

theorem map_eq_self {f : Char → Char} {l : List Char}
    (h : ∀ c ∈ l, f c = c) : l.map f = l := by
  induction l with
  | nil => rfl
  | cons c rest ih =>
    simp only [List.map_cons, h c (List.mem_cons_self c rest),
      ih (fun x hx => h x (List.mem_cons_of_mem c hx))]

theorem not_dot_mem_replaced (l : List Char) :
    ∀ c ∈ replaceAtSign (replaceDot l), c ≠ '.' ∧ c ≠ '@' := by
  intro c hc
  simp only [replaceAtSign, replaceDot, List.mem_map] at hc
  obtain ⟨x, ⟨y, _, rfl⟩, rfl⟩ := hc
  by_cases hy : y = '.'
  · subst hy
    exact ⟨by decide, by decide⟩
  · by_cases hy2 : y = '@'
    · subst hy2
      exact ⟨by decide, by decide⟩
    · simp [hy, hy2]

/-- Every character surviving to the sanitised output comes from the
replaced list, so the output contains no `.` and no `@`. -/
theorem sanitised_chars (s : String) :
    ∀ c ∈ rstripUnderscore (collapseRuns (replaceAtSign (replaceDot s.toList))),
      c ≠ '.' ∧ c ≠ '@' := by
  intro c hc
  exact not_dot_mem_replaced s.toList c
    (mem_collapseRunsAux false (mem_rstripUnderscore hc))

theorem sanitize_eq_derived (s : String) :
    sanitize_collection_name s = derived_collection_name s := by
  unfold sanitize_collection_name derived_collection_name
  rw [collapseLoop_eq]

theorem derived_idem (s : String) :
    derived_collection_name (derived_collection_name s) = derived_collection_name s := by
  have key : ∀ L : List Char,
      (∀ c ∈ L, c ≠ '.' ∧ c ≠ '@') → hasDoubleUnderscore L = false →
      rstripUnderscore L = L →
      rstripUnderscore (collapseRuns (replaceAtSign (replaceDot L))) = L := by
    intro L hchars hdd hrs
    have h1 : replaceDot L = L :=
      map_eq_self fun c hc => if_neg (hchars c hc).1
    have h2 : replaceAtSign L = L :=
      map_eq_self fun c hc => if_neg (hchars c hc).2
    have h3 : collapseRuns L = L := (collapseRunsAux_of_not_double L hdd).1
    rw [h1, h2, h3, hrs]
  unfold derived_collection_name
  have htl : ∀ L : List Char, (List.asString L).toList = L := fun L => rfl
  rw [htl]
  congr 1
  apply key
  · exact sanitised_chars s
  · exact hasDoubleUnderscore_rstrip _
      (hasDoubleUnderscore_collapseRunsAux _ false)
  · exact rstripUnderscore_idem _

/-! ## Lemmas about the retrieval planner -/

theorem step1_go (f : SearchFn) (enabled : List String) :
    ∀ (A : List Chunk) (B : String → List Chunk),
      enabled.foldl (step1Body f) (A, B) =
        (A ++ enabled.flatMap (hitsOf f),
         fun x => B x ++ (enabled.filter (fun y => y = x)).flatMap (hitsOf f)) := by
  induction enabled with
  | nil => intro A B; simp
  | cons d rest ih =>
    intro A B
    simp only [List.foldl_cons]
    have hhits : ∀ hits, f d = .ok hits → hitsOf f d = hits := by
      intro hits h; simp [hitsOf, h]
    cases hfd : f d with
    | error err =>
      have hnil : hitsOf f d = [] := by simp [hitsOf, hfd]
      rw [show step1Body f (A, B) d = (A, B) by simp [step1Body, hfd], ih]
      refine Prod.ext ?_ ?_
      · simp [hnil]
      · funext x
        by_cases hx : d = x
        · subst hx; simp [List.filter_cons, hnil]
        · simp [List.filter_cons, hx]
    | ok hits =>
      rw [show step1Body f (A, B) d =
            (A ++ hits, fun x => if x = d then B x ++ hits else B x) by
          simp [step1Body, hfd], ih]
      refine Prod.ext ?_ ?_
      · simp [hhits hits hfd]
      · funext x
        by_cases hx : d = x
        · subst hx
          simp [List.filter_cons, hhits hits hfd]
        · have hx2 : ¬ x = d := fun h => hx h.symm
          simp [List.filter_cons, hx, hx2]

theorem step1_fst (f : SearchFn) (e : List String) :
    (step1 f e).1 = e.flatMap (hitsOf f) := by
  unfold step1; rw [step1_go]; simp

theorem step1_snd (f : SearchFn) (e : List String) (x : String) :
    (step1 f e).2 x = (e.filter (fun y => y = x)).flatMap (hitsOf f) := by
  unfold step1; rw [step1_go]; simp

theorem mem_byDoc {f : SearchFn} {e : List String} {d : String} {c : Chunk} :
    c ∈ (step1 f e).2 d ↔ d ∈ e ∧ c ∈ hitsOf f d := by
  rw [step1_snd]
  simp only [List.mem_flatMap, List.mem_filter]
  constructor
  · rintro ⟨y, ⟨hy, hyd⟩, hc⟩
    have : y = d := by simpa using hyd
    exact this ▸ ⟨hy, hc⟩
  · rintro ⟨hd, hc⟩
    exact ⟨d, ⟨hd, by simp⟩, hc⟩

theorem byDoc_eq_nil {f : SearchFn} {e : List String} {d : String} (hd : d ∈ e) :
    (step1 f e).2 d = [] ↔ hitsOf f d = [] := by
  constructor
  · intro h
    rw [List.eq_nil_iff_forall_not_mem] at h ⊢
    intro c hc
    exact h c (mem_byDoc.mpr ⟨hd, hc⟩)
  · intro h
    rw [List.eq_nil_iff_forall_not_mem]
    intro c hc
    rw [mem_byDoc, h] at hc
    exact (List.not_mem_nil c) hc.2

theorem maxByScore_mem (c : Chunk) (cs : List Chunk) : maxByScore c cs ∈ c :: cs := by
  induction cs generalizing c with
  | nil => simp [maxByScore]
  | cons x xs ih =>
    have h := ih (if c.score < x.score then x else c)
    simp only [maxByScore, List.foldl_cons] at h ⊢
    rcases List.mem_cons.mp h with h1 | h1
    · rw [h1]
      split <;> simp
    · simp [h1]

theorem maxByScore_score (c : Chunk) (cs : List Chunk) :
    ∀ x ∈ c :: cs, x.score ≤ (maxByScore c cs).score := by
  induction cs generalizing c with
  | nil =>
    intro x hx
    rcases List.mem_cons.mp hx with rfl | hx2
    · exact le_refl _
    · exact absurd hx2 (List.not_mem_nil x)
  | cons y ys ih =>
    intro x hx
    have hstep : maxByScore c (y :: ys) = maxByScore (if c.score < y.score then y else c) ys := by
      simp [maxByScore]
    rw [hstep]
    rcases List.mem_cons.mp hx with rfl | hx2
    · have h1 : x.score ≤ (if x.score < y.score then y else x).score := by
        split
        · exact le_of_lt ‹x.score < y.score›
        · exact le_refl _
      exact le_trans h1 (ih _ _ (List.mem_cons_self _ _))
    · rcases List.mem_cons.mp hx2 with rfl | hx3
      · have h1 : x.score ≤ (if c.score < x.score then x else c).score := by

          split
          · exact le_refl _
          · exact le_of_not_lt ‹¬ c.score < x.score›
        exact le_trans h1 (ih _ _ (List.mem_cons_self _ _))
      · exact ih _ x (List.mem_cons_of_mem _ hx3)

theorem bestChunk?_mem {l : List Chunk} {b : Chunk} (h : bestChunk? l = some b) :
    b ∈ l := by
  cases l with
  | nil => simp [bestChunk?] at h
  | cons c cs =>
    simp only [bestChunk?, Option.some.injEq] at h
    exact h ▸ maxByScore_mem c cs

theorem bestChunk?_score {l : List Chunk} {b : Chunk} (h : bestChunk? l = some b) :
    ∀ x ∈ l, x.score ≤ b.score := by
  cases l with
  | nil => simp
  | cons c cs =>
    simp only [bestChunk?, Option.some.injEq] at h
    exact h ▸ maxByScore_score c cs

theorem bestChunk?_eq_none {l : List Chunk} : bestChunk? l = none ↔ l = [] := by
  cases l <;> simp [bestChunk?]

theorem mandatoryPass_go (byDoc : String → List Chunk) (e : List String) :
    ∀ (A : List Chunk) (B : List String),
      e.foldl (mandatoryBody byDoc) (A, B) =
        (A ++ e.filterMap (fun d => bestChunk? (byDoc d)),
         B ++ e.filter (fun d => (byDoc d).isEmpty)) := by
  induction e with
  | nil => intro A B; simp
  | cons d rest ih =>
    intro A B
    simp only [List.foldl_cons]
    cases hbd : bestChunk? (byDoc d) with
    | some b =>
      have hne : (byDoc d).isEmpty = false := by
        cases h : byDoc d
        · rw [h] at hbd; simp [bestChunk?] at hbd
        · simp [h]
      rw [show mandatoryBody byDoc (A, B) d = (A ++ [b], B) by
            simp [mandatoryBody, hbd], ih]
      simp [List.filterMap_cons, List.filter_cons, hbd, hne]
    | none =>
      have he : (byDoc d).isEmpty = true := by
        cases h : byDoc d
        · simp [h]
        · rw [h] at hbd; simp [bestChunk?] at hbd
      rw [show mandatoryBody byDoc (A, B) d = (A, B ++ [d]) by
            simp [mandatoryBody, hbd], ih]
      simp [List.filterMap_cons, List.filter_cons, hbd, he]

theorem mandatoryPass_fst (e : List String) (byDoc : String → List Chunk) :
    (mandatoryPass e byDoc).1 = e.filterMap (fun d => bestChunk? (byDoc d)) := by
  unfold mandatoryPass; rw [mandatoryPass_go]; simp

theorem mandatoryPass_snd (e : List String) (byDoc : String → List Chunk) :
    (mandatoryPass e byDoc).2 = e.filter (fun d => (byDoc d).isEmpty) := by
  unfold mandatoryPass; rw [mandatoryPass_go]; simp

theorem supplementaryPass_spec (pool : List Chunk) (m : ℕ) :
    ∀ acc, ∃ added, supplementaryPass pool m acc = acc ++ added ∧
      added.Nodup ∧
      ∀ c ∈ added, c ∈ pool ∧ SIMILARITY_THRESHOLD ≤ c.score ∧ c ∉ acc := by
  induction pool with
  | nil =>
    intro acc
    exact ⟨[], by simp [supplementaryPass], List.nodup_nil, by simp⟩
  | cons c rest ih =>
    intro acc
    by_cases h1 : m ≤ acc.length
    · exact ⟨[], by simp [supplementaryPass, h1], List.nodup_nil, by simp⟩
    · by_cases h2 : c ∉ acc ∧ SIMILARITY_THRESHOLD ≤ c.score
      · obtain ⟨added, heq, hnd, hprops⟩ := ih (acc ++ [c])
        refine ⟨c :: added, ?_, ?_, ?_⟩
        · rw [show supplementaryPass (c :: rest) m acc =
                supplementaryPass rest m (acc ++ [c]) by
              simp [supplementaryPass, h1, h2], heq, List.append_assoc]
          rfl
        · refine List.nodup_cons.mpr ⟨?_, hnd⟩
          intro hmem
          exact (hprops c hmem).2.2 (List.mem_append_right acc (List.mem_singleton.mpr rfl))
        · intro x hx
          rcases List.mem_cons.mp hx with rfl | hx2
          · exact ⟨List.mem_cons_self _ _, h2.2, h2.1⟩
          · obtain ⟨hp, hs, hna⟩ := hprops x hx2
            exact ⟨List.mem_cons_of_mem _ hp, hs,
              fun hmem => hna (List.mem_append_left _ hmem)⟩
      · obtain ⟨added, heq, hnd, hprops⟩ := ih acc
        refine ⟨added, ?_, hnd, ?_⟩
        · rw [show supplementaryPass (c :: rest) m acc =
                supplementaryPass rest m acc by
              simp only [supplementaryPass, if_neg h1, if_neg h2], heq]
        · intro x hx
          obtain ⟨hp, hs, hna⟩ := hprops x hx
          exact ⟨List.mem_cons_of_mem _ hp, hs, hna⟩

theorem supplementaryPass_length (pool : List Chunk) (m : ℕ) :
    ∀ acc, (supplementaryPass pool m acc).length ≤ max acc.length m := by
  induction pool with
  | nil => intro acc; simp [supplementaryPass]
  | cons c rest ih =>
    intro acc
    by_cases h1 : m ≤ acc.length
    · simp [supplementaryPass, h1]
    · by_cases h2 : c ∉ acc ∧ SIMILARITY_THRESHOLD ≤ c.score
      · have h3 := ih (acc ++ [c])
        rw [show supplementaryPass (c :: rest) m acc =
              supplementaryPass rest m (acc ++ [c]) by
            simp [supplementaryPass, h1, h2]]
        simp only [List.length_append, List.length_singleton] at h3
        omega
      · rw [show supplementaryPass (c :: rest) m acc =
              supplementaryPass rest m acc by
            simp only [supplementaryPass, if_neg h1, if_neg h2]]
        exact ih acc

theorem sortByScoreDesc_perm (l : List Chunk) : (sortByScoreDesc l).Perm l :=
  List.perm_insertionSort chunkGe l

theorem mem_sortByScoreDesc {c : Chunk} {l : List Chunk} :
    c ∈ sortByScoreDesc l ↔ c ∈ l :=
  (sortByScoreDesc_perm l).mem_iff

theorem sortByScoreDesc_sorted (l : List Chunk) :
    (sortByScoreDesc l).Pairwise chunkGe :=
  List.sorted_insertionSort chunkGe l

theorem sortByScoreDesc_length (l : List Chunk) :
    (sortByScoreDesc l).length = l.length :=
  (sortByScoreDesc_perm l).length_eq

theorem sortByScoreDesc_eq_nil {l : List Chunk} :
    sortByScoreDesc l = [] ↔ l = [] := by
  constructor
  · intro h
    have := sortByScoreDesc_length l
    rw [h] at this
    exact List.eq_nil_of_length_eq_zero this.symm
  · intro h; rw [h]; rfl

theorem planChunks_ok_dest {f : SearchFn} {e : List String} {cs : List Chunk}
    (h : planChunks f e = .ok cs) :
    (mandatoryPass e (step1 f e).2).2 = [] ∧
    cs = sortByScoreDesc (supplementaryPass (sortByScoreDesc (step1 f e).1)
          (e.length * 3) (mandatoryPass e (step1 f e).2).1) ∧
    cs ≠ [] ∧
    (∀ d ∈ e, ∃ c ∈ cs, c.document_id = d) := by
  simp only [planChunks] at h
  split at h
  · exact absurd h (by simp)
  · rename_i hmp
    split at h
    · exact absurd h (by simp)
    · rename_i hempty
      split at h
      · exact absurd h (by simp)
      · rename_i hmissing
        have hcs : sortByScoreDesc (supplementaryPass (sortByScoreDesc (step1 f e).1)
            (e.length * 3) (mandatoryPass e (step1 f e).2).1) = cs := by
          injection h
        refine ⟨by simpa using hmp, hcs.symm, ?_, ?_⟩
        · rw [← hcs]
          intro habs
          rw [habs] at hempty
          exact hempty rfl
        · intro d hd
          have hnil : List.filter
              (fun d => (sortByScoreDesc (supplementaryPass (sortByScoreDesc (step1 f e).1)
                (e.length * 3) (mandatoryPass e (step1 f e).2).1)).all
                  (fun c => c.document_id ≠ d)) e = [] := by
            simpa using hmissing
          have hnall := List.filter_eq_nil_iff.mp hnil d hd
          rw [← hcs]
          by_contra hnone
          push_neg at hnone
          apply hnall
          rw [List.all_eq_true]
          intro c hc
          simpa using hnone c hc

theorem planChunks_ok_intro (f : SearchFn) (e : List String)
    (h1 : (mandatoryPass e (step1 f e).2).2 = [])
    (h2 : sortByScoreDesc (supplementaryPass (sortByScoreDesc (step1 f e).1)
            (e.length * 3) (mandatoryPass e (step1 f e).2).1) ≠ [])
    (h3 : ∀ d ∈ e, ∃ c ∈ sortByScoreDesc (supplementaryPass (sortByScoreDesc (step1 f e).1)
            (e.length * 3) (mandatoryPass e (step1 f e).2).1), c.document_id = d) :
    planChunks f e = .ok (sortByScoreDesc (supplementaryPass (sortByScoreDesc (step1 f e).1)
      (e.length * 3) (mandatoryPass e (step1 f e).2).1)) := by
  simp only [planChunks]
  rw [if_neg (by simpa using h1), if_neg (by simpa using h2), if_neg ?_]
  rw [show (¬ _ ≠ []) ↔ _ = [] from not_not]
  rw [List.filter_eq_nil_iff]
  intro d hd
  obtain ⟨c, hc, hcd⟩ := h3 d hd
  rw [List.all_eq_true]
  push_neg
  exact ⟨c, hc, by simpa using hcd⟩

theorem planChunks_incomplete (f : SearchFn) (e : List String) (d0 : String)
    (hd0 : d0 ∈ e) (h0 : hitsOf f d0 = []) :
    planChunks f e = .error (.incompleteRepresentation
      (e.filter (fun d => (hitsOf f d).isEmpty))) := by
  have hmp : (mandatoryPass e (step1 f e).2).2 =
      e.filter (fun d => (hitsOf f d).isEmpty) := by
    rw [mandatoryPass_snd]
    apply List.filter_congr
    intro d hd
    rw [Bool.eq_iff_iff]
    simp only [List.isEmpty_eq_true]
    exact byDoc_eq_nil hd
  have hne : (mandatoryPass e (step1 f e).2).2 ≠ [] := by
    rw [hmp]
    exact List.ne_nil_of_mem (List.mem_filter.mpr ⟨hd0, by simp [h0]⟩)
  simp only [planChunks]
  rw [if_pos hne, hmp]

theorem step1_recover (f : SearchFn) (e : List String) :
    step1 f e = step1 (fun d => .ok (hitsOf f d)) e := by
  unfold step1
  suffices h : ∀ acc, e.foldl (step1Body f) acc =
      e.foldl (step1Body (fun d => .ok (hitsOf f d))) acc from h _
  induction e with
  | nil => intro acc; rfl
  | cons d rest ih =>
    intro acc
    simp only [List.foldl_cons]
    rw [show step1Body f acc d = step1Body (fun d => .ok (hitsOf f d)) acc d from ?_]
    · exact ih _
    · cases acc with
    | mk A B =>
      cases hfd : f d with
      | error err =>
        have : hitsOf f d = [] := by simp [hitsOf, hfd]
        simp only [step1Body, hfd, this]
        refine Prod.ext (by simp) ?_
        funext x
        simp
      | ok hits =>
        have : hitsOf f d = hits := by simp [hitsOf, hfd]
        simp only [step1Body, hfd, this]

theorem planChunks_recover (f : SearchFn) (e : List String) :
    planChunks f e = planChunks (fun d => .ok (hitsOf f d)) e := by
  unfold planChunks
  rw [step1_recover]

/-! ## Claims about the retrieval planner -/

/-- C1: when every enabled document ID yields at least one candidate from
the vector search (whose hits carry that document ID, per the query
filter), the returned RetrievalResult covers exactly the requested enabled
document IDs — the set of document_id values over the returned chunks
equals the set of enabled document IDs — and, for a nonempty request, a
result is indeed returned. -/
theorem retrieval_coverage (f : SearchFn) (e : List String)
    (hne : ∀ d ∈ e, hitsOf f d ≠ [])
    (hid : ∀ d ∈ e, ∀ c ∈ hitsOf f d, c.document_id = d) :
    (∀ cs, planChunks f e = .ok cs →
        ∀ d, d ∈ cs.map Chunk.document_id ↔ d ∈ e) ∧
    (e ≠ [] → ∃ cs, planChunks f e = .ok cs) := by
  have hbd : ∀ d ∈ e, (step1 f e).2 d ≠ [] := by
    intro d hd habs
    exact hne d hd ((byDoc_eq_nil hd).mp habs)
  have hbest : ∀ d ∈ e, ∃ b, bestChunk? ((step1 f e).2 d) = some b := by
    intro d hd
    cases h : bestChunk? ((step1 f e).2 d) with
    | none => exact absurd (bestChunk?_eq_none.mp h) (hbd d hd)
    | some b => exact ⟨b, rfl⟩
  have hmem_to_enabled : ∀ c ∈ supplementaryPass (sortByScoreDesc (step1 f e).1)
      (e.length * 3) (mandatoryPass e (step1 f e).2).1, c.document_id ∈ e := by
    intro c hc
    obtain ⟨added, heq, _, hprops⟩ :=
      supplementaryPass_spec (sortByScoreDesc (step1 f e).1) (e.length * 3)
        (mandatoryPass e (step1 f e).2).1
    rw [heq] at hc
    rcases List.mem_append.mp hc with hcm | hca
    · rw [mandatoryPass_fst] at hcm
      obtain ⟨d, hd, hb⟩ := List.mem_filterMap.mp hcm
      have := (mem_byDoc.mp (bestChunk?_mem hb)).2
      rw [hid d hd c this]
      exact hd
    · have h1 : c ∈ (step1 f e).1 := mem_sortByScoreDesc.mp (hprops c hca).1
      rw [step1_fst] at h1
      obtain ⟨d, hd, hcd⟩ := List.mem_flatMap.mp h1
      rw [hid d hd c hcd]
      exact hd
  constructor
  · intro cs hok d
    obtain ⟨hmp, hcs, _, hcov⟩ := planChunks_ok_dest hok
    constructor
    · intro hd
      obtain ⟨c, hc, rfl⟩ := List.mem_map.mp hd
      rw [hcs] at hc
      exact hmem_to_enabled c (mem_sortByScoreDesc.mp hc)
    · intro hd
      obtain ⟨c, hc, hcid⟩ := hcov d hd
      exact List.mem_map.mpr ⟨c, hc, hcid⟩
  · intro hene
    have h1 : (mandatoryPass e (step1 f e).2).2 = [] := by
      rw [mandatoryPass_snd, List.filter_eq_nil_iff]
      intro d hd
      simp only [List.isEmpty_eq_true]
      exact hbd d hd
    have hmem_best : ∀ d ∈ e, ∃ b ∈ sortByScoreDesc (supplementaryPass
        (sortByScoreDesc (step1 f e).1) (e.length * 3)
        (mandatoryPass e (step1 f e).2).1), b.document_id = d := by
      intro d hd
      obtain ⟨b, hb⟩ := hbest d hd
      obtain ⟨added, heq, _, _⟩ :=
        supplementaryPass_spec (sortByScoreDesc (step1 f e).1) (e.length * 3)
          (mandatoryPass e (step1 f e).2).1
      have hbm : b ∈ (mandatoryPass e (step1 f e).2).1 := by
        rw [mandatoryPass_fst]
        exact List.mem_filterMap.mpr ⟨d, hd, hb⟩
      refine ⟨b, mem_sortByScoreDesc.mpr (heq ▸ List.mem_append_left added hbm), ?_⟩
      exact hid d hd b (mem_byDoc.mp (bestChunk?_mem hb)).2
    obtain ⟨d0, hd0⟩ := List.exists_mem_of_ne_nil e hene
    obtain ⟨b0, hb0, _⟩ := hmem_best d0 hd0
    exact ⟨_, planChunks_ok_intro f e h1 (List.ne_nil_of_mem hb0) hmem_best⟩

/-- C1 witness: in the two-document scenario both documents have
candidates, and the planner returns a result. -/
theorem retrieval_coverage_witness :
    ∃ cs, planChunks scenarioTwoDocs ["d1", "d2"] = .ok cs :=
  (retrieval_coverage scenarioTwoDocs ["d1", "d2"]
    (by decide) (by decide)).2 (by decide)

/-- C2: when at least one enabled document ID yields zero candidates, the
planner raises the representation-guarantee error naming exactly the
zero-candidate document IDs, and returns no result. -/
theorem incomplete_representation_error (f : SearchFn) (e : List String)
    (d0 : String) (hd0 : d0 ∈ e) (h0 : hitsOf f d0 = []) :
    planChunks f e = .error (.incompleteRepresentation
      (e.filter (fun d => (hitsOf f d).isEmpty))) ∧
    (∀ x, x ∈ e.filter (fun d => (hitsOf f d).isEmpty) ↔
      x ∈ e ∧ hitsOf f x = []) := by
  refine ⟨planChunks_incomplete f e d0 hd0 h0, ?_⟩
  intro x
  simp [List.mem_filter]

/-- C2 witness: requesting `d1` and the unindexed `dX` in the
two-document scenario fails with the error naming exactly `dX`. -/
theorem incomplete_representation_error_witness :
    planChunks scenarioTwoDocs ["d1", "dX"] = .error (.incompleteRepresentation
      (["d1", "dX"].filter (fun d => (hitsOf scenarioTwoDocs d).isEmpty))) ∧
    (["d1", "dX"].filter (fun d => (hitsOf scenarioTwoDocs d).isEmpty)) = ["dX"] :=
  ⟨(incomplete_representation_error scenarioTwoDocs ["d1", "dX"] "dX"
      (by decide) (by decide)).1, by decide⟩

/-- C3: every successful result is, up to the final sort, the mandatory
best-of-document set followed by supplementary candidates taken from the
retrieved pool, each scoring at least the 0.75 threshold, with duplicates
of already-included chunks skipped; the result never exceeds three chunks
per enabled document; and in the concrete scenario with remaining
candidates scored 0.95, 0.80, 0.70 exactly the first two are appended. -/
theorem supplementary_threshold_cap (f : SearchFn) (e : List String) :
    (∀ cs, planChunks f e = .ok cs → cs.length ≤ e.length * 3) ∧
    (∀ cs, planChunks f e = .ok cs → ∃ added,
        cs.Perm ((mandatoryPass e (step1 f e).2).1 ++ added) ∧ added.Nodup ∧
        ∀ c ∈ added, c ∈ (step1 f e).1 ∧ SIMILARITY_THRESHOLD ≤ c.score ∧
          c ∉ (mandatoryPass e (step1 f e).2).1) ∧
    planChunks scenarioSupplementary ["d1", "d2"] = .ok
      [⟨"t1", "n1", "d1", mkRat 98 100⟩, ⟨"t2", "n1", "d1", mkRat 95 100⟩,
       ⟨"t3", "n1", "d1", mkRat 80 100⟩, ⟨"t4", "n2", "d2", mkRat 76 100⟩] := by
  refine ⟨?_, ?_, by decide⟩
  · intro cs hok
    obtain ⟨_, hcs, _, _⟩ := planChunks_ok_dest hok
    have hlen : cs.length = (supplementaryPass (sortByScoreDesc (step1 f e).1)
        (e.length * 3) (mandatoryPass e (step1 f e).2).1).length := by
      rw [hcs, sortByScoreDesc_length]
    have hsup := supplementaryPass_length (sortByScoreDesc (step1 f e).1)
      (e.length * 3) (mandatoryPass e (step1 f e).2).1
    have hmand : (mandatoryPass e (step1 f e).2).1.length ≤ e.length := by
      rw [mandatoryPass_fst]
      exact List.length_filterMap_le _ _
    omega
  · intro cs hok
    obtain ⟨_, hcs, _, _⟩ := planChunks_ok_dest hok
    obtain ⟨added, heq, hnd, hprops⟩ :=
      supplementaryPass_spec (sortByScoreDesc (step1 f e).1) (e.length * 3)
        (mandatoryPass e (step1 f e).2).1
    refine ⟨added, ?_, hnd, ?_⟩
    · rw [hcs, ← heq]
      exact sortByScoreDesc_perm _
    · intro c hc
      obtain ⟨hp, hs, hna⟩ := hprops c hc
      exact ⟨mem_sortByScoreDesc.mp hp, hs, hna⟩

/-- C3 witness: the scenario result has four chunks, within the cap of
three per enabled document. -/
theorem supplementary_threshold_cap_witness :
    planChunks scenarioSupplementary ["d1", "d2"] = .ok
      [⟨"t1", "n1", "d1", mkRat 98 100⟩, ⟨"t2", "n1", "d1", mkRat 95 100⟩,
       ⟨"t3", "n1", "d1", mkRat 80 100⟩, ⟨"t4", "n2", "d2", mkRat 76 100⟩] ∧
    ([⟨"t1", "n1", "d1", mkRat 98 100⟩, ⟨"t2", "n1", "d1", mkRat 95 100⟩,
      ⟨"t3", "n1", "d1", mkRat 80 100⟩,
      ⟨"t4", "n2", "d2", mkRat 76 100⟩] : List Chunk).length ≤
        (["d1", "d2"] : List String).length * 3 := by
  have h := supplementary_threshold_cap scenarioSupplementary ["d1", "d2"]
  exact ⟨h.2.2, h.1 _ h.2.2⟩

/-- C5: a failed per-document index query does not propagate out of the
planner — the plan computes exactly as if that document had returned zero
candidates — and a failure for an enabled document surfaces only as the
representation-guarantee error. -/
theorem search_failure_recovery (f : SearchFn) (e : List String) :
    planChunks f e = planChunks (fun d => .ok (hitsOf f d)) e ∧
    (∀ d err, d ∈ e → f d = .error err →
        planChunks f e = .error (.incompleteRepresentation
          (e.filter (fun x => (hitsOf f x).isEmpty)))) := by
  refine ⟨planChunks_recover f e, ?_⟩
  intro d err hd herr
  exact planChunks_incomplete f e d hd (by simp [hitsOf, herr])

/-- C5 witness: with the failing search, the planner computes the same
outcome as with the recovered search, namely the representation error. -/
theorem search_failure_recovery_witness :
    planChunks scenarioFailingSearch ["d1", "d2"] =
      planChunks (fun d => .ok (hitsOf scenarioFailingSearch d)) ["d1", "d2"] ∧
    planChunks scenarioFailingSearch ["d1", "d2"] = .error (.incompleteRepresentation
      (["d1", "d2"].filter (fun x => (hitsOf scenarioFailingSearch x).isEmpty))) := by
  have h := search_failure_recovery scenarioFailingSearch ["d1", "d2"]
  exact ⟨h.1, h.2 "d1" "index query failed" (by decide) (by decide)⟩

/-- C6: every successful result contains, for each enabled document, a
maximum-score candidate of that document (regardless of its absolute
score), and is sorted descending by score; the two-document scenario
returns exactly the two entries ordered d1 (0.9) then d2 (0.6). -/
theorem mandatory_best_and_sorted :
    (∀ (f : SearchFn) (e : List String) (cs : List Chunk),
        planChunks f e = .ok cs →
        (∀ d ∈ e, ∃ c ∈ cs, c ∈ hitsOf f d ∧
          ∀ x ∈ hitsOf f d, x.score ≤ c.score) ∧
        cs.Pairwise chunkGe) ∧
    planChunks scenarioTwoDocs ["d1", "d2"] =
      .ok [⟨"t1", "n1", "d1", mkRat 9 10⟩, ⟨"t2", "n2", "d2", mkRat 6 10⟩] := by
  refine ⟨?_, by decide⟩
  intro f e cs hok
  obtain ⟨hmp, hcs, _, _⟩ := planChunks_ok_dest hok
  constructor
  · intro d hd
    have hfilter : List.filter (fun d => ((step1 f e).2 d).isEmpty) e = [] := by
      rw [mandatoryPass_snd] at hmp
      exact hmp
    have hbne : (step1 f e).2 d ≠ [] := by
      intro hnil
      have := List.filter_eq_nil_iff.mp hfilter d hd
      simp [hnil] at this
    obtain ⟨b, hbest⟩ : ∃ b, bestChunk? ((step1 f e).2 d) = some b := by
      cases h : bestChunk? ((step1 f e).2 d) with
      | none => exact absurd (bestChunk?_eq_none.mp h) hbne
      | some b => exact ⟨b, rfl⟩
    have hbm : b ∈ (mandatoryPass e (step1 f e).2).1 := by
      rw [mandatoryPass_fst]
      exact List.mem_filterMap.mpr ⟨d, hd, hbest⟩
    obtain ⟨added, heq, _, _⟩ :=
      supplementaryPass_spec (sortByScoreDesc (step1 f e).1) (e.length * 3)
        (mandatoryPass e (step1 f e).2).1
    refine ⟨b, ?_, (mem_byDoc.mp (bestChunk?_mem hbest)).2, ?_⟩
    · rw [hcs]
      exact mem_sortByScoreDesc.mpr (heq ▸ List.mem_append_left added hbm)
    · intro x hx
      exact bestChunk?_score hbest x (mem_byDoc.mpr ⟨hd, hx⟩)
  · rw [hcs]
    exact sortByScoreDesc_sorted _

/-- C6 witness: in the two-document scenario the result contains the
best candidate of `d1` and is sorted descending. -/
theorem mandatory_best_and_sorted_witness :
    planChunks scenarioTwoDocs ["d1", "d2"] =
      .ok [⟨"t1", "n1", "d1", mkRat 9 10⟩, ⟨"t2", "n2", "d2", mkRat 6 10⟩] ∧
    (∃ c ∈ ([⟨"t1", "n1", "d1", mkRat 9 10⟩,
        ⟨"t2", "n2", "d2", mkRat 6 10⟩] : List Chunk),
      c ∈ hitsOf scenarioTwoDocs "d1" ∧
        ∀ x ∈ hitsOf scenarioTwoDocs "d1", x.score ≤ c.score) ∧
    ([⟨"t1", "n1", "d1", mkRat 9 10⟩,
      ⟨"t2", "n2", "d2", mkRat 6 10⟩] : List Chunk).Pairwise chunkGe := by
  have h := mandatory_best_and_sorted
  have h2 := h.1 scenarioTwoDocs ["d1", "d2"]
    [⟨"t1", "n1", "d1", mkRat 9 10⟩, ⟨"t2", "n2", "d2", mkRat 6 10⟩] (by decide)
  exact ⟨h.2, h2.1 "d1" (by decide), h2.2⟩

/-! ## Lemmas about the context-window manager -/

theorem trimLoop_suffix (mts : List (Msg × ℕ)) :
    ∀ total maxT, trimLoop mts total maxT <:+ mts := by
  induction mts with
  | nil => intro t m; exact List.suffix_rfl
  | cons p rest ih =>
    intro t m
    simp only [trimLoop]
    by_cases h : m < t ∧ 2 < (p :: rest).length
    · rw [if_pos h]
      exact (ih _ _).trans (List.suffix_cons p rest)
    · rw [if_neg h]

theorem trimLoop_length (mts : List (Msg × ℕ)) :
    ∀ total maxT, 2 ≤ mts.length → 2 ≤ (trimLoop mts total maxT).length := by
  induction mts with
  | nil => intro t m h; simp at h
  | cons p rest ih =>
    intro t m h
    simp only [trimLoop]
    by_cases hc : m < t ∧ 2 < (p :: rest).length
    · rw [if_pos hc]
      refine ih _ _ ?_
      have := hc.2
      simp only [List.length_cons] at this
      omega
    · rw [if_neg hc]
      exact h

theorem trimLoop_total (mts : List (Msg × ℕ)) :
    ∀ base maxT,
      base + ((trimLoop mts (base + (mts.map (fun p => p.2)).sum) maxT).map
          (fun p => p.2)).sum ≤ maxT ∨
        (trimLoop mts (base + (mts.map (fun p => p.2)).sum) maxT).length ≤ 2 := by
  induction mts with
  | nil => intro base m; right; simp [trimLoop]
  | cons p rest ih =>
    intro base m
    simp only [trimLoop]
    by_cases hc : m < base + ((p :: rest).map (fun p => p.2)).sum ∧
        2 < (p :: rest).length
    · rw [if_pos hc]
      have harith : base + ((p :: rest).map (fun p => p.2)).sum - p.2 =
          base + (rest.map (fun p => p.2)).sum := by
        simp only [List.map_cons, List.sum_cons]
        omega
      rw [harith]
      exact ih base m
    · rw [if_neg hc]
      by_cases h1 : m < base + ((p :: rest).map (fun p => p.2)).sum
      · right
        have h2 : ¬ 2 < (p :: rest).length := fun h2 => hc ⟨h1, h2⟩
        omega
      · left
        omega

theorem trimLoop_minimal (mts : List (Msg × ℕ)) :
    ∀ base maxT r', r' <:+ mts →
      (trimLoop mts (base + (mts.map (fun p => p.2)).sum) maxT).length < r'.length →
      maxT < base + (r'.map (fun p => p.2)).sum := by
  induction mts with
  | nil =>
    intro base m r' hr hlen
    rw [List.suffix_nil.mp hr] at hlen
    simp [trimLoop] at hlen
  | cons p rest ih =>
    intro base m r' hr hlen
    simp only [trimLoop] at hlen
    by_cases hc : m < base + ((p :: rest).map (fun p => p.2)).sum ∧
        2 < (p :: rest).length
    · rw [if_pos hc] at hlen
      have harith : base + ((p :: rest).map (fun p => p.2)).sum - p.2 =
          base + (rest.map (fun p => p.2)).sum := by
        simp only [List.map_cons, List.sum_cons]
        omega
      rw [harith] at hlen
      rcases List.suffix_cons_iff.mp hr with heq | hr2
      · rw [heq]
        exact hc.1
      · exact ih base m r' hr2 hlen
    · rw [if_neg hc] at hlen
      have := hr.length_le
      omega

theorem suffix_map_inv {α β : Type} (g : α → β) :
    ∀ (l : List α) (s : List β), s <:+ l.map g →
      ∃ l2, l2 <:+ l ∧ s = l2.map g := by
  intro l
  induction l with
  | nil =>
    intro s hs
    rw [List.map_nil] at hs
    exact ⟨[], List.suffix_rfl, List.suffix_nil.mp hs⟩
  | cons a l ih =>
    intro s hs
    rw [List.map_cons] at hs
    rcases List.suffix_cons_iff.mp hs with h | h
    · exact ⟨a :: l, List.suffix_rfl, by rw [h, List.map_cons]⟩
    · obtain ⟨l2, hl2, rfl⟩ := ih s h
      exact ⟨l2, hl2.trans (List.suffix_cons a l), rfl⟩

theorem suffix_map_of_suffix {α β : Type} (g : α → β) {s l : List α}
    (h : s <:+ l) : s.map g <:+ l.map g := by
  obtain ⟨t, ht⟩ := h
  exact ⟨t.map g, by rw [← List.map_append, ht]⟩

/-! ## Claims about the context-window manager -/

/-- C4: the manager returns the history untouched when the combined token
count fits the budget; otherwise it removes turns from the oldest end only
(the result is a suffix of the input, so remaining turns are neither
reordered nor mutated), keeps at least two turns whenever at least two were
supplied, stops exactly when the total fits or the two-turn floor is hit,
and never removes a turn that was not necessary (every strictly longer
suffix still exceeds the budget). -/
theorem context_window_fit (tc : String → ℕ) (system_message query : String)
    (chat_history : List Msg) (maxTokens : ℕ) :
    (totalTokens tc system_message query chat_history ≤ maxTokens →
      manage_context_window tc system_message chat_history query maxTokens =
        chat_history) ∧
    manage_context_window tc system_message chat_history query maxTokens <:+
      chat_history ∧
    (2 ≤ chat_history.length →
      2 ≤ (manage_context_window tc system_message chat_history query
        maxTokens).length) ∧
    (3 ≤ chat_history.length →
      maxTokens < totalTokens tc system_message query chat_history →
      (totalTokens tc system_message query
          (manage_context_window tc system_message chat_history query maxTokens) ≤
            maxTokens ∨
        (manage_context_window tc system_message chat_history query
          maxTokens).length = 2)) ∧
    (∀ r', r' <:+ chat_history →
      (manage_context_window tc system_message chat_history query
        maxTokens).length < r'.length →
      maxTokens < totalTokens tc system_message query r') := by
  by_cases hnil : chat_history.isEmpty
  · rw [List.isEmpty_eq_true] at hnil
    subst hnil
    refine ⟨fun _ => rfl, List.suffix_rfl, by simp [manage_context_window], by simp, ?_⟩
    intro r' hr hlen
    rw [List.suffix_nil.mp hr] at hlen
    simp [manage_context_window] at hlen
  · have hunfold : manage_context_window tc system_message chat_history query maxTokens =
        if tc system_message + tc query +
            ((chat_history.map (fun m => (m, tc m.content))).map (fun p => p.2)).sum ≤
              maxTokens then chat_history
        else (trimLoop (chat_history.map (fun m => (m, tc m.content)))
          (tc system_message + tc query +
            ((chat_history.map (fun m => (m, tc m.content))).map (fun p => p.2)).sum)
          maxTokens).map (fun p => p.1) := by
      simp only [manage_context_window, hnil, Bool.false_eq_true, if_false]
    have hsum : ((chat_history.map (fun m => (m, tc m.content))).map
        (fun p => p.2)).sum = (chat_history.map (fun m => tc m.content)).sum := by
      rw [List.map_map]
      rfl
    have htot : totalTokens tc system_message query chat_history =
        tc system_message + tc query +
          ((chat_history.map (fun m => (m, tc m.content))).map (fun p => p.2)).sum := by
      rw [hsum]
      rfl
    by_cases hfit : totalTokens tc system_message query chat_history ≤ maxTokens
    · have hres : manage_context_window tc system_message chat_history query maxTokens =
          chat_history := by
        rw [hunfold, if_pos (htot ▸ hfit)]
      refine ⟨fun _ => hres, by rw [hres], fun h => by rw [hres]; exact h, ?_, ?_⟩
      · intro _ hover
        exact absurd hfit (not_le.mpr hover)
      · intro r' hr hlen
        rw [hres] at hlen
        exact absurd hlen (not_lt.mpr hr.length_le)
    · have hres : manage_context_window tc system_message chat_history query maxTokens =
          (trimLoop (chat_history.map (fun m => (m, tc m.content)))
            (tc system_message + tc query +
              ((chat_history.map (fun m => (m, tc m.content))).map (fun p => p.2)).sum)
            maxTokens).map (fun p => p.1) := by
        rw [hunfold, if_neg (htot ▸ hfit)]
      obtain ⟨h2, hsuf2, heq2⟩ := suffix_map_inv (fun m => (m, tc m.content))
        chat_history _ (trimLoop_suffix (chat_history.map (fun m => (m, tc m.content)))
          (tc system_message + tc query +
            ((chat_history.map (fun m => (m, tc m.content))).map (fun p => p.2)).sum)
          maxTokens)
      have hr2 : manage_context_window tc system_message chat_history query maxTokens =
          h2 := by
        rw [hres, heq2, List.map_map]
        exact List.map_id h2
      have htot2 : totalTokens tc system_message query h2 =
          tc system_message + tc query +
            ((trimLoop (chat_history.map (fun m => (m, tc m.content)))
              (tc system_message + tc query +
                ((chat_history.map (fun m => (m, tc m.content))).map (fun p => p.2)).sum)
              maxTokens).map (fun p => p.2)).sum := by
        rw [heq2, List.map_map]
        rfl
      refine ⟨fun h => absurd h hfit, hr2 ▸ hsuf2, ?_, ?_, ?_⟩
      · intro hlen2
        rw [hr2]
        have := trimLoop_length (chat_history.map (fun m => (m, tc m.content)))
          (tc system_message + tc query +
            ((chat_history.map (fun m => (m, tc m.content))).map (fun p => p.2)).sum)
          maxTokens (by rw [List.length_map]; exact hlen2)
        rw [heq2, List.length_map] at this
        exact this
      · intro hlen3 _
        have hth := trimLoop_total (chat_history.map (fun m => (m, tc m.content)))
          (tc system_message + tc query) maxTokens
        rcases hth with hth | hth
        · left
          rw [hr2, htot2]
          exact hth
        · right
          have hge : 2 ≤ (manage_context_window tc system_message chat_history query
              maxTokens).length := by
            rw [hr2]
            have := trimLoop_length (chat_history.map (fun m => (m, tc m.content)))
              (tc system_message + tc query +
                ((chat_history.map (fun m => (m, tc m.content))).map (fun p => p.2)).sum)
              maxTokens (by rw [List.length_map]; omega)
            rw [heq2, List.length_map] at this
            exact this
          have hle : (manage_context_window tc system_message chat_history query
              maxTokens).length ≤ 2 := by
            rw [hr2, ← List.length_map h2 (fun m => (m, tc m.content)), ← heq2]
            exact hth
          omega
      · intro r' hr hlen
        have hmap : r'.map (fun m => (m, tc m.content)) <:+
            chat_history.map (fun m => (m, tc m.content)) :=
          suffix_map_of_suffix _ hr
        have hlen2 : (trimLoop (chat_history.map (fun m => (m, tc m.content)))
            (tc system_message + tc query +
              ((chat_history.map (fun m => (m, tc m.content))).map (fun p => p.2)).sum)
            maxTokens).length < (r'.map (fun m => (m, tc m.content))).length := by
          rw [List.length_map, heq2, List.length_map]
          rw [hr2] at hlen
          exact hlen
        have := trimLoop_minimal (chat_history.map (fun m => (m, tc m.content)))
          (tc system_message + tc query) maxTokens
          (r'.map (fun m => (m, tc m.content))) hmap hlen2
        rw [List.map_map] at this
        exact this

/-- C4 witness: four ten-token turns against a budget of 10 trim down to
the two-turn floor. -/
theorem context_window_fit_witness :
    totalTokens (fun s => s.length) "sys" "q"
        (manage_context_window (fun s => s.length) "sys" histC4 "q" 10) ≤ 10 ∨
      (manage_context_window (fun s => s.length) "sys" histC4 "q" 10).length = 2 :=
  (context_window_fit (fun s => s.length) "sys" "q" histC4 10).2.2.2.1
    (by decide) (by decide)

/-- C10: the manager never trims a history of fewer than three turns — an
empty history yields an empty list, and one or two turns are returned
unchanged even when over budget. -/
theorem short_history_untrimmed (tc : String → ℕ) (system_message query : String)
    (chat_history : List Msg) (maxTokens : ℕ) (h : chat_history.length ≤ 2) :
    manage_context_window tc system_message chat_history query maxTokens =
      chat_history := by
  cases chat_history with
  | nil => rfl
  | cons p rest =>
    simp only [manage_context_window, List.isEmpty_cons, Bool.false_eq_true, if_false]
    by_cases hfit : tc system_message + tc query +
        (((p :: rest).map (fun m => (m, tc m.content))).map (fun p => p.2)).sum ≤
          maxTokens
    · rw [if_pos hfit]
    · rw [if_neg hfit]
      have hcond : ¬ (maxTokens < tc system_message + tc query +
          (((p :: rest).map (fun m => (m, tc m.content))).map (fun p => p.2)).sum ∧
          2 < ((p :: rest).map (fun m => (m, tc m.content))).length) := by
        rintro ⟨_, hlen⟩
        rw [List.length_map] at hlen
        omega
      rw [show trimLoop ((p :: rest).map (fun m => (m, tc m.content)))
            (tc system_message + tc query +
              (((p :: rest).map (fun m => (m, tc m.content))).map (fun p => p.2)).sum)
            maxTokens = (p :: rest).map (fun m => (m, tc m.content)) by
          rw [List.map_cons, trimLoop, if_neg (by simpa using hcond)]]
      rw [List.map_map]
      exact List.map_id _

/-- C10 witness: a single turn of ten tokens against a budget of 3 is
kept whole. -/
theorem short_history_untrimmed_witness :
    manage_context_window (fun s => s.length) "sys"
        [⟨"user", "aaaaaaaaaa"⟩] "q" 3 = [⟨"user", "aaaaaaaaaa"⟩] :=
  short_history_untrimmed (fun s => s.length) "sys" "q"
    [⟨"user", "aaaaaaaaaa"⟩] 3 (by decide)

/-! ## Claims about the collection-name derivation -/

/-- C7 counterexample: the source derivation performs no lower-casing, so
on the identity `User@Example.com` it differs from the derivation the
claim describes (which lower-cases first). -/
theorem collection_name_no_lower_casing :
    sanitize_collection_name "User@Example.com" = "User_Example_com" ∧
    spec_collection_name "User@Example.com" = "user_example_com" ∧
    sanitize_collection_name "User@Example.com" ≠
      spec_collection_name "User@Example.com" :=
  ⟨by decide, by decide, by decide⟩

/-- C7 (amended): for every caller identity string the collection name is
derived by replacing every `.` and `@` with `_`, collapsing each run of
repeated `_` to a single `_`, and stripping trailing `_` — with no
lower-casing step. -/
theorem collection_name_derivation (s : String) :
    sanitize_collection_name s = derived_collection_name s :=
  sanitize_eq_derived s

/-- C8: the collection-name derivation is total (a function defined on all
of `String`) and idempotent: applying it twice yields the result of
applying it once. -/
theorem collection_name_idempotent (s : String) :
    sanitize_collection_name (sanitize_collection_name s) =
      sanitize_collection_name s := by
  rw [sanitize_eq_derived, sanitize_eq_derived, derived_idem]

/-! ## Claim about the generation usage ledger -/

/-- C9: `create_message` invokes `generate_response` without `chat_id` or
`user_id`; with both defaulted to `None` the truthiness guard of line 328
suppresses the record, so a successful generation call emits no
UsageRecord at all — contradicting the one-record-per-generation-call
write contract the claim states. -/
theorem generation_without_ids_emits_no_record (answer : String)
    (usage : ProviderUsage) :
    generate_response (.ok (answer, usage)) none none = .ok (answer, []) := rfl

end PythiQ
